import Mathlib

/-!
Verification development for the luna-code tokenizer / line-reconstruction
engine (lunadom/components/code/code.js, class LunaCode).

Strings are modelled as `List Char`.  Every function below is a direct
shallow embedding of the corresponding method of the source file; the
source method and its behaviour are named in each doc comment.  Recursion
that the JS performs with a cursor over a fixed string is modelled either
structurally on the remaining suffix or with an explicit fuel argument
bounded by the length of the input (the same bound that makes the JS loop
terminate), so that all definitions compute by kernel reduction.
-/

namespace LunaCode

/-- Whitespace test used by the model for the JS notions `\s` (the regex
class used by `_dedent`'s indent computation), `String.prototype.trim`,
and blank-line tests.  The ASCII whitespace characters are covered
(space, tab, LF, CR, VT, FF); the Unicode space characters that JS also
accepts play no role in any claim. -/
def isWs (c : Char) : Bool :=
  c = ' ' || c = '\t' || c = '\n' || c = '\r' || c = Char.ofNat 11 || c = Char.ofNat 12

/-- A line is blank when `line.trim()` is empty, i.e. all characters are
whitespace (used by `_dedent`'s leading/trailing line stripping and its
`filter(l => l.trim())`). -/
def isBlank (l : List Char) : Bool :=
  l.all isWs

/-- Mirrors `str.trim()` (JS): remove whitespace from both ends. -/
def jsTrim (s : List Char) : List Char :=
  ((s.dropWhile isWs).reverse.dropWhile isWs).reverse

/-- Mirrors `str.split('\n')` (JS): the list of '\n'-free parts; the empty
string splits to one empty part. -/
def splitOnNl : List Char → List (List Char)
  | [] => [[]]
  | c :: cs =>
    if c = '\n' then [] :: splitOnNl cs
    else
      match splitOnNl cs with
      | [] => [[c]]
      | l :: ls => (c :: l) :: ls

/-- Mirrors `lines.join('\n')` (JS). -/
def joinNl : List (List Char) → List Char
  | [] => []
  | [l] => l
  | l :: l2 :: ls => l ++ '\n' :: joinNl (l2 :: ls)

/-- Leading-whitespace length of a line: `l.match(/^(\s*)/)[1].length` in
`_dedent` (code.js line 160). -/
def indentOf (l : List Char) : Nat :=
  (l.takeWhile isWs).length

/-- Mirrors `Math.min(...list.map(indent))` over a list of lines; `0` for
an empty list (that case is unreachable in `_dedent`, where the list
always contains the non-blank first line). -/
def indentList : List (List Char) → Nat
  | [] => 0
  | n :: ns => ns.foldl (fun a l => min a (indentOf l)) (indentOf n)

/-- The indent `_dedent` removes: minimum leading-whitespace length over
the non-blank lines (code.js lines 159-161). -/
def minIndent (ls : List (List Char)) : Nat :=
  indentList (ls.filter (fun l => !(isBlank l)))

/-- The leading/trailing blank-line stripping of `_dedent` (the two
`while` loops with `shift()` and `pop()`, code.js lines 147-153). -/
def dropBlankEnds (ls : List (List Char)) : List (List Char) :=
  ((ls.dropWhile isBlank).reverse.dropWhile isBlank).reverse

/-- Mirrors `_dedent` (code.js lines 144-164): split into lines, strip
blank lines at both ends, return `''` if nothing is left, else remove the
common indent from every line (`l.slice(indent)`) and rejoin with '\n'. -/
def dedent (s : List Char) : List Char :=
  if dropBlankEnds (splitOnNl s) = [] then []
  else
    joinNl ((dropBlankEnds (splitOnNl s)).map
      (fun l => l.drop (minIndent (dropBlankEnds (splitOnNl s)))))

/-- One global single-character replacement, the meaning of each of the
three `.replace(/x/g, r)` calls in `_escape` (code.js lines 166-171). -/
def repChar (p : Char) (r : List Char) : List Char → List Char
  | [] => []
  | c :: cs => (if c = p then r else [c]) ++ repChar p r cs

/-- Mirrors `_escape` (code.js lines 166-171): replace `&` by `&amp;`,
then `<` by `&lt;`, then `>` by `&gt;`, in that order. -/
def escape (s : List Char) : List Char :=
  repChar '>' ['&', 'g', 't', ';']
    (repChar '<' ['&', 'l', 't', ';']
      (repChar '&' ['&', 'a', 'm', 'p', ';'] s))

/-- The per-character form of `escape` (used only in proofs). -/
def escCh (c : Char) : List Char :=
  if c = '&' then ['&', 'a', 'm', 'p', ';']
  else if c = '<' then ['&', 'l', 't', ';']
  else if c = '>' then ['&', 'g', 't', ';']
  else [c]

/-- Un-escaping, the left inverse of `escape` used to state the spec's
"un-escaping every Fragment's escapedText" round-trip: the three entities
produced by `escape` are folded back to their characters, left to right.
Fuel-structural so that it computes by kernel reduction; `unescape` below
instantiates the fuel with the length of the input, which suffices. -/
def unescapeF : Nat → List Char → List Char
  | 0, s => s
  | _ + 1, [] => []
  | fuel + 1, c :: cs =>
    if c = '&' ∧ cs.take 4 = ['a', 'm', 'p', ';'] then
      '&' :: unescapeF fuel (cs.drop 4)
    else if c = '&' ∧ cs.take 3 = ['l', 't', ';'] then
      '<' :: unescapeF fuel (cs.drop 3)
    else if c = '&' ∧ cs.take 3 = ['g', 't', ';'] then
      '>' :: unescapeF fuel (cs.drop 3)
    else
      c :: unescapeF fuel cs

/-- Un-escape a fragment text (inverse of `escape`, see `unescapeF`). -/
def unescape (s : List Char) : List Char :=
  unescapeF s.length s

/-- Token classification.  The classes the source attaches to its spans:
`cm` for both comment forms (the spec splits them into `LineComment` for
`//` comments and `BlockComment` for `/* */` and `<!-- -->` comments),
`tg` for tag text, `str` for quoted strings, `pl` for plain characters;
a bare newline is emitted with no span. -/
inductive Kind where
  | lineComment
  | blockComment
  | tag
  | stringLit
  | plain
  | newline
deriving DecidableEq, Repr

/-- A token of the scanner: its kind and the exact substring of the
scanned source it covers. -/
structure Token where
  kind : Kind
  rawText : List Char
deriving DecidableEq, Repr

/-- A fragment: one token's contribution to one physical output line,
carrying the escaped text placed inside the corresponding span. -/
structure Fragment where
  kind : Kind
  text : List Char
deriving DecidableEq, Repr

/-- Mirrors `src.indexOf(c, i)` relative to position `i`: index of the
first occurrence of the character in the list, `none` if absent. -/
def findChar (c : Char) : List Char → Option Nat
  | [] => none
  | x :: xs => if x = c then some 0 else (findChar c xs).map (· + 1)

/-- Mirrors `src.indexOf(pat, i)` relative to position `i`: index of the
first position where `pat` is a prefix of the remaining list. -/
def findSub (pat : List Char) : List Char → Option Nat
  | [] => if pat.isPrefixOf [] then some 0 else none
  | s@(_ :: xs) => if pat.isPrefixOf s then some 0 else (findSub pat xs).map (· + 1)

/-- The quoted-string scan shared by `_tokenize` (code.js lines 229-233)
and `_colorTag` (lines 278-281): starting just after an opening quote,
`while (j < len && src[j] !== quote) { if (src[j] === '\\') j++; j++; }`.
Returns the final `j` relative to the position after the opening quote:
the number of characters skipped before the closing quote (one or two
more than the length of the remaining input when unterminated, since the
slice and drop that use it clamp, exactly as `slice` does in JS). -/
def scanQ (q : Char) : List Char → Nat
  | [] => 0
  | [c] => if c = q then 0 else if c = '\\' then 2 else 1
  | c :: d :: cs =>
    if c = q then 0
    else if c = '\\' then scanQ q cs + 2
    else scanQ q (d :: cs) + 1

/-- The tag-open test of `_tokenize` (code.js line 216): the character
after `<` is `/`, an ASCII letter, or `!` (`peek(1) === '/' ||
/[a-zA-Z!]/.test(peek(1))`; `peek` yields `''` past the end, which fails
both tests). -/
def isTagStart : Option Char → Bool
  | none => false
  | some c =>
    c = '/' || ('a' ≤ c && c ≤ 'z') || ('A' ≤ c && c ≤ 'Z') || c = '!'

/-- The last three rules of `_tokenize` (code.js lines 226-247), reached
when no earlier rule matched at cursor character `c` with remainder `cs`:
quoted string (consume through the closing quote found by `scanQ`),
newline (single character), default plain (single character).  This is
also the code path taken when the tag rule matches but finds no `>`
(`end === -1` skips the `continue`, falling through to these rules). -/
def tailBranches (c : Char) (cs : List Char) : Token × List Char :=
  if c = '"' ∨ c = '\'' then
    let k := scanQ c cs
    (⟨Kind.stringLit, c :: cs.take (k + 1)⟩, cs.drop (k + 1))
  else if c = '\n' then
    (⟨Kind.newline, [c]⟩, cs)
  else
    (⟨Kind.plain, [c]⟩, cs)

/-- One iteration of the `_tokenize` scan loop (code.js lines 185-248):
the token starting at the cursor and the remaining input.  The rules are
tried in the source's order: line comment (`//` to the next newline,
exclusive), block comment (`/*` through `*/`, or to the end when
unterminated), HTML comment (`<!--` through `-->`, or to the end), tag
(`<` plus tag-start character, through the first `>` found anywhere in
the remaining input by a plain `indexOf`; when no `>` exists the source
falls through to the later rules), then `tailBranches`.  `none` exactly
when the input is exhausted. -/
def nextToken : List Char → Option (Token × List Char)
  | [] => none
  | c :: cs =>
    some (
      if c = '/' ∧ cs.head? = some '/' then
        match findChar '\n' (c :: cs) with
        | some e => (⟨Kind.lineComment, (c :: cs).take e⟩, (c :: cs).drop e)
        | none => (⟨Kind.lineComment, c :: cs⟩, [])
      else if c = '/' ∧ cs.head? = some '*' then
        match findSub ['*', '/'] (cs.drop 1) with
        | some e => (⟨Kind.blockComment, (c :: cs).take (e + 4)⟩, (c :: cs).drop (e + 4))
        | none => (⟨Kind.blockComment, c :: cs⟩, [])
      else if (c :: cs).take 4 = ['<', '!', '-', '-'] then
        match findSub ['-', '-', '>'] (c :: cs) with
        | some e => (⟨Kind.blockComment, (c :: cs).take (e + 3)⟩, (c :: cs).drop (e + 3))
        | none => (⟨Kind.blockComment, c :: cs⟩, [])
      else if c = '<' ∧ isTagStart cs.head? = true then
        match findChar '>' (c :: cs) with
        | some e => (⟨Kind.tag, (c :: cs).take (e + 1)⟩, (c :: cs).drop (e + 1))
        | none => tailBranches c cs
      else tailBranches c cs)

/-- The `_tokenize` scan loop with explicit fuel.  Each iteration of the
JS `while (i < len)` loop advances the cursor by at least one character
(`nextToken_spec` below), so `len` iterations always suffice; `tokenize`
instantiates the fuel with the input length. -/
def tokenizeF : Nat → List Char → List Token
  | 0, _ => []
  | fuel + 1, s =>
    match nextToken s with
    | none => []
    | some (t, rest) => t :: tokenizeF fuel rest

/-- Mirrors `_tokenize` (code.js lines 177-251) at token level: the
ordered token stream of the scanned text. -/
def tokenize (s : List Char) : List Token :=
  tokenizeF s.length s

/-- Mirrors `_spanMultiline` (code.js lines 255-260) at fragment level:
split the raw text on '\n' and wrap every part (empty parts included) in
its own span of the given class, the parts separated by line breaks.
Each inner list is the fragment list the token contributes to one line. -/
def spanMultiline (k : Kind) (raw : List Char) : List (List Fragment) :=
  (splitOnNl raw).map (fun p => [⟨k, escape p⟩])

/-- Prepend a fragment to the first line of a line list (used to place
the `tg` span that `_colorTag` closes before a quoted sub-span). -/
def consHead (f : Fragment) : List (List Fragment) → List (List Fragment)
  | [] => [[f]]
  | l :: ls => (f :: l) :: ls

/-- Concatenation of per-line output: `glue a b` is the line list of
`x ++ y` when `a` and `b` are the line lists of `x` and `y`; the last
line of `a` continues with the first line of `b` (this is how splitting
the source's single output string on '\n' composes). -/
def glue : List (List Fragment) → List (List Fragment) → List (List Fragment)
  | [], b => b
  | [l], b =>
    match b with
    | [] => [l]
    | m :: ms => (l ++ m) :: ms
  | l :: l2 :: ls, b => l :: glue (l2 :: ls) b

/-- The `_colorTag` loop (code.js lines 262-295) at fragment level, with
fuel (see `tokenizeF`).  `acc` is the escaped text accumulated in the
currently open `tg` span.  A newline closes the `tg` span and reopens it
on the next line; a quote closes the `tg` span, emits the quoted raw
via `_spanMultiline(strRaw, 'str')`, and reopens a fresh `tg` span after
it; any other character is escaped into the open span; the final `tg`
span is closed at the end of the tag text. -/
def colorTagGoF : Nat → List Char → List Char → List (List Fragment)
  | _, acc, [] => [[⟨Kind.tag, acc⟩]]
  | 0, acc, _ :: _ => [[⟨Kind.tag, acc⟩]]
  | fuel + 1, acc, c :: cs =>
    if c = '\n' then
      [⟨Kind.tag, acc⟩] :: colorTagGoF fuel [] cs
    else if c = '"' ∨ c = '\'' then
      let k := scanQ c cs
      glue (consHead ⟨Kind.tag, acc⟩ (spanMultiline Kind.stringLit (c :: cs.take (k + 1))))
        (colorTagGoF fuel [] (cs.drop (k + 1)))
    else
      colorTagGoF fuel (acc ++ escape [c]) cs

/-- Mirrors `_colorTag` (code.js lines 262-295) at fragment level. -/
def colorTagGo (acc : List Char) (s : List Char) : List (List Fragment) :=
  colorTagGoF s.length acc s

/-- The per-line fragments a single token contributes, read off from the
span structure each `_tokenize` branch emits: a line comment or plain
character is one span holding its escaped text; block comments (both
forms) and strings go through `_spanMultiline`; tags go through
`_colorTag`; a bare newline contributes no span, only a line break. -/
def fragLines (t : Token) : List (List Fragment) :=
  match t.kind with
  | Kind.lineComment => [[⟨Kind.lineComment, escape t.rawText⟩]]
  | Kind.blockComment => spanMultiline Kind.blockComment t.rawText
  | Kind.tag => colorTagGo [] t.rawText
  | Kind.stringLit => spanMultiline Kind.stringLit t.rawText
  | Kind.newline => [[], []]
  | Kind.plain => [[⟨Kind.plain, escape t.rawText⟩]]

/-- The line records of a token stream: the source concatenates every
token's span output into one string and `_buildLines` splits that string
on '\n'; splitting a concatenation is gluing the splits, so the line
list of the stream is the right-nested glue of the per-token line lists
over the empty output `[[]]` (the split of the empty string). -/
def renderTokens : List Token → List (List Fragment)
  | [] => [[]]
  | t :: ts => glue (fragLines t) (renderTokens ts)

/-- Text reconstructed from one line: the concatenation of the
un-escaped fragment texts. -/
def lineText (l : List Fragment) : List Char :=
  l.foldr (fun f acc => unescape f.text ++ acc) []

/-- Text reconstructed from a line-record list: the un-escaped fragment
texts rejoined with one '\n' between consecutive lines. -/
def docText (ls : List (List Fragment)) : List Char :=
  joinNl (ls.map lineText)

/-- Literal `<span class="line">`. -/
def lineOpenT : List Char :=
  ['<', 's', 'p', 'a', 'n', ' ', 'c', 'l', 'a', 's', 's', '=', '"', 'l', 'i', 'n', 'e', '"', '>']

/-- Literal `<span class="ln">`. -/
def lnOpenT : List Char :=
  ['<', 's', 'p', 'a', 'n', ' ', 'c', 'l', 'a', 's', 's', '=', '"', 'l', 'n', '"', '>']

/-- Literal `<span>`. -/
def spanOpenT : List Char :=
  ['<', 's', 'p', 'a', 'n', '>']

/-- Literal `</span>`. -/
def spanCloseT : List Char :=
  ['<', '/', 's', 'p', 'a', 'n', '>']

/-- Mirrors `${line || ' '}` in `_buildLines`: an empty line renders as a
single space. -/
def orSpace (l : List Char) : List Char :=
  if l = [] then [' '] else l

/-- Concatenation of the mapped line strings (`'.join('')`). -/
def concatAll : List (List Char) → List Char
  | [] => []
  | l :: ls => l ++ concatAll ls

/-- Mirrors `_buildLines` (code.js lines 297-309) at the HTML-string
level.  The first argument is `hasLineNumbers = !this.hasAttribute('no-lines')`,
read from mutable element attribute state by the source; here it is an
explicit parameter.  The highlighted string is split on '\n' and each
line is wrapped in a `line` span, with a numbered `ln` span prepended
when line numbers are on. -/
def buildLines (hasLineNumbers : Bool) (highlighted : List Char) : List Char :=
  if hasLineNumbers then
    concatAll ((splitOnNl highlighted).enum.map (fun p =>
      lineOpenT ++ lnOpenT ++ Nat.toDigits 10 (p.1 + 1) ++ spanCloseT ++
        spanOpenT ++ orSpace p.2 ++ spanCloseT ++ spanCloseT))
  else
    concatAll ((splitOnNl highlighted).map (fun line =>
      lineOpenT ++ spanOpenT ++ orSpace line ++ spanCloseT ++ spanCloseT))

/-- Mirrors `_handleCopy` (code.js lines 483-504): the text written to
the clipboard is `this._dedent(this._originalCode).trim()` (line 484). -/
def handleCopy (original : List Char) : List Char :=
  jsTrim (dedent original)

/-- The example input of the tag-containment claim:
`<span class="a>b">x</span>`. -/
def c1input : List Char :=
  ['<', 's', 'p', 'a', 'n', ' ', 'c', 'l', 'a', 's', 's', '=', '"', 'a', '>', 'b', '"', '>',
   'x', '<', '/', 's', 'p', 'a', 'n', '>']

/-- The tag span the claim asserts for `c1input`: `<span class="a>b">`. -/
def c1claimedOpen : List Char :=
  ['<', 's', 'p', 'a', 'n', ' ', 'c', 'l', 'a', 's', 's', '=', '"', 'a', '>', 'b', '"', '>']

/-- The tag token the scanner actually produces on `c1input`:
`<span class="a>` (the `indexOf`-based search stops at the `>` inside the
quoted attribute value). -/
def c1actualTag : List Char :=
  ['<', 's', 'p', 'a', 'n', ' ', 'c', 'l', 'a', 's', 's', '=', '"', 'a', '>']

/-- The string token the scanner actually produces on `c1input`:
`">x</span>` (the re-opened quote swallows the rest of the input). -/
def c1actualStr : List Char :=
  ['"', '>', 'x', '<', '/', 's', 'p', 'a', 'n', '>']

/-- Input whose dedent keeps a leading space on the first line: ` a\nb`. -/
def c2x : List Char :=
  [' ', 'a', '\n', 'b']

/-- Input whose dedent keeps a trailing space: `a `. -/
def c3x : List Char :=
  ['a', ' ']

/-- A tag-open with no `>` anywhere after it: `<a`. -/
def c4input : List Char :=
  ['<', 'a']

/-- The text after `/*` in the unterminated-comment example
`/* never closed`. -/
def c5tail : List Char :=
  [' ', 'n', 'e', 'v', 'e', 'r', ' ', 'c', 'l', 'o', 's', 'e', 'd']

/-- The unterminated-comment example input `/* never closed`. -/
def c5input : List Char :=
  '/' :: '*' :: c5tail

/-- Text after an opening double quote used to witness the string rule:
`a"b` (the quote closes after one character). -/
def c6cs : List Char :=
  ['a', '"', 'b']

/-- The multi-line block comment example `/* line1\nline2 */`. -/
def c7input : List Char :=
  ['/', '*', ' ', 'l', 'i', 'n', 'e', '1', '\n', 'l', 'i', 'n', 'e', '2', ' ', '*', '/']

/-- First physical line of `c7input`: `/* line1`. -/
def c7line1 : List Char :=
  ['/', '*', ' ', 'l', 'i', 'n', 'e', '1']

/-- Second physical line of `c7input`: `line2 */`. -/
def c7line2 : List Char :=
  ['l', 'i', 'n', 'e', '2', ' ', '*', '/']

theorem splitOnNl_ne_nil (s : List Char) : splitOnNl s ≠ [] := by
  cases s with
  | nil => simp [splitOnNl]
  | cons c cs =>
    by_cases h : c = '\n'
    · simp [splitOnNl, h]
    · simp only [splitOnNl, if_neg h]
      cases splitOnNl cs <;> simp

theorem joinNl_cons₂ (l : List Char) (L : List (List Char)) (h : L ≠ []) :
    joinNl (l :: L) = l ++ '\n' :: joinNl L := by
  cases L with
  | nil => exact absurd rfl h
  | cons m ms => rfl

theorem splitOnNl_cons_nl (cs : List Char) : splitOnNl ('\n' :: cs) = [] :: splitOnNl cs := by
  simp [splitOnNl]

theorem joinNl_splitOnNl (s : List Char) : joinNl (splitOnNl s) = s := by
  induction s with
  | nil => rfl
  | cons c cs ih =>
    by_cases h : c = '\n'
    · subst h
      rw [splitOnNl_cons_nl, joinNl_cons₂ _ _ (splitOnNl_ne_nil cs), ih]
      rfl
    · simp only [splitOnNl, if_neg h]
      cases hs : splitOnNl cs with
      | nil => exact absurd hs (splitOnNl_ne_nil cs)
      | cons l ls =>
        rw [hs] at ih
        cases ls with
        | nil =>
          simp only [joinNl] at ih ⊢
          rw [ih]
        | cons l2 ls2 =>
          simp only [joinNl] at ih ⊢
          rw [List.cons_append, ih]

theorem not_nl_mem_splitOnNl : ∀ (s : List Char) (l : List Char),
    l ∈ splitOnNl s → '\n' ∉ l
  | [], l, h => by
    simp [splitOnNl] at h
    simp [h]
  | c :: cs, l, h => by
    by_cases hc : c = '\n'
    · subst hc
      rw [splitOnNl_cons_nl] at h
      rcases List.mem_cons.mp h with h | h
      · simp [h]
      · exact not_nl_mem_splitOnNl cs l h
    · simp only [splitOnNl, if_neg hc] at h
      cases hs : splitOnNl cs with
      | nil => exact absurd hs (splitOnNl_ne_nil cs)
      | cons m ms =>
        rw [hs] at h
        simp only [List.mem_cons] at h
        rcases h with h | h
        · subst h
          intro hm
          rcases List.mem_cons.mp hm with h1 | h1
          · exact hc h1.symm
          · exact not_nl_mem_splitOnNl cs m (hs ▸ List.mem_cons_self m ms) h1
        · exact not_nl_mem_splitOnNl cs l (by rw [hs]; exact List.mem_cons_of_mem m h)

theorem splitOnNl_of_not_mem {l : List Char} (h : '\n' ∉ l) : splitOnNl l = [l] := by
  induction l with
  | nil => rfl
  | cons c cs ih =>
    have hc : c ≠ '\n' := fun e => h (by simp [e])
    have hcs : '\n' ∉ cs := fun m => h (List.mem_cons_of_mem c m)
    simp [splitOnNl, hc, ih hcs]

theorem splitOnNl_append_nl {l : List Char} (s : List Char) (h : '\n' ∉ l) :
    splitOnNl (l ++ '\n' :: s) = l :: splitOnNl s := by
  induction l with
  | nil => simp [splitOnNl]
  | cons c cs ih =>
    have hc : c ≠ '\n' := fun e => h (by simp [e])
    have hcs : '\n' ∉ cs := fun m => h (List.mem_cons_of_mem c m)
    rw [List.cons_append]
    simp only [splitOnNl, if_neg hc]
    rw [ih hcs]

theorem repChar_append (p : Char) (r : List Char) (a b : List Char) :
    repChar p r (a ++ b) = repChar p r a ++ repChar p r b := by
  induction a with
  | nil => rfl
  | cons c cs ih =>
    show (if c = p then r else [c]) ++ repChar p r (cs ++ b)
      = ((if c = p then r else [c]) ++ repChar p r cs) ++ repChar p r b
    rw [ih, List.append_assoc]

theorem escape_append (a b : List Char) : escape (a ++ b) = escape a ++ escape b := by
  simp [escape, repChar_append]

theorem escape_nil : escape [] = [] := rfl

theorem escape_cons (c : Char) (s : List Char) : escape (c :: s) = escCh c ++ escape s := by
  have key : escape [c] = escCh c := by
    by_cases h1 : c = '&'
    · subst h1; rfl
    · by_cases h2 : c = '<'
      · subst h2; rfl
      · by_cases h3 : c = '>'
        · subst h3; rfl
        · simp [escape, repChar, escCh, h1, h2, h3]
  calc escape (c :: s) = escape ([c] ++ s) := rfl
    _ = escape [c] ++ escape s := escape_append [c] s
    _ = escCh c ++ escape s := by rw [key]

theorem unescapeF_nil (fuel : Nat) : unescapeF fuel [] = [] := by
  cases fuel <;> rfl

theorem unescapeF_amp (fuel : Nat) (X : List Char) :
    unescapeF (fuel + 1) ('&' :: 'a' :: 'm' :: 'p' :: ';' :: X) = '&' :: unescapeF fuel X := by
  simp [unescapeF]

theorem unescapeF_lt (fuel : Nat) (X : List Char) :
    unescapeF (fuel + 1) ('&' :: 'l' :: 't' :: ';' :: X) = '<' :: unescapeF fuel X := by
  simp [unescapeF]

theorem unescapeF_gt (fuel : Nat) (X : List Char) :
    unescapeF (fuel + 1) ('&' :: 'g' :: 't' :: ';' :: X) = '>' :: unescapeF fuel X := by
  simp [unescapeF]

theorem unescapeF_other (fuel : Nat) (c : Char) (X : List Char) (h1 : c ≠ '&') :
    unescapeF (fuel + 1) (c :: X) = c :: unescapeF fuel X := by
  simp [unescapeF, h1]

theorem unescapeF_escape : ∀ (s : List Char) (fuel : Nat), (escape s).length ≤ fuel →
    unescapeF fuel (escape s) = s
  | [], fuel, _ => by rw [escape_nil, unescapeF_nil]
  | c :: s', fuel, h => by
    rw [escape_cons] at h ⊢
    have hfe : (escape s').length ≤ fuel - 1 := by
      have h5 : 1 ≤ (escCh c).length := by
        by_cases h1 : c = '&'
        · simp [escCh, h1]
        · by_cases h2 : c = '<'
          · simp [escCh, h1, h2]
          · by_cases h3 : c = '>'
            · simp [escCh, h1, h2, h3]
            · simp [escCh, h1, h2, h3]
      rw [List.length_append] at h
      omega
    have hf1 : 1 ≤ fuel := by
      have := List.length_append (escCh c) (escape s')
      by_cases h1 : c = '&'
      · subst h1; simp [escCh] at h; omega
      · by_cases h2 : c = '<'
        · subst h2; simp [escCh, h1] at h; omega
        · by_cases h3 : c = '>'
          · subst h3; simp [escCh, h1, h2] at h; omega
          · simp [escCh, h1, h2, h3] at h; omega
    obtain ⟨fuel', rfl⟩ : ∃ fuel', fuel = fuel' + 1 := ⟨fuel - 1, by omega⟩
    have ih := unescapeF_escape s' fuel' (by simpa using hfe)
    by_cases h1 : c = '&'
    · subst h1
      rw [show escCh '&' = ['&', 'a', 'm', 'p', ';'] from rfl, List.cons_append]
      show unescapeF (fuel' + 1) ('&' :: 'a' :: 'm' :: 'p' :: ';' :: escape s') = _
      rw [unescapeF_amp, ih]
    · by_cases h2 : c = '<'
      · subst h2
        rw [show escCh '<' = ['&', 'l', 't', ';'] from rfl, List.cons_append]
        show unescapeF (fuel' + 1) ('&' :: 'l' :: 't' :: ';' :: escape s') = _
        rw [unescapeF_lt, ih]
      · by_cases h3 : c = '>'
        · subst h3
          rw [show escCh '>' = ['&', 'g', 't', ';'] from rfl, List.cons_append]
          show unescapeF (fuel' + 1) ('&' :: 'g' :: 't' :: ';' :: escape s') = _
          rw [unescapeF_gt, ih]
        · rw [show escCh c = [c] from by simp [escCh, h1, h2, h3], List.cons_append]
          show unescapeF (fuel' + 1) (c :: escape s') = _
          rw [unescapeF_other fuel' c _ h1, ih]

theorem unescape_escape (s : List Char) : unescape (escape s) = s :=
  unescapeF_escape s (escape s).length le_rfl

theorem splitOnNl_joinNl : ∀ (L : List (List Char)), L ≠ [] →
    (∀ l ∈ L, '\n' ∉ l) → splitOnNl (joinNl L) = L
  | [], h, _ => absurd rfl h
  | [l], _, hm => by simp [joinNl, splitOnNl_of_not_mem (hm l (by simp))]
  | l :: l2 :: ls, _, hm => by
    rw [joinNl_cons₂ _ _ (by simp), splitOnNl_append_nl _ (hm l (by simp)),
      splitOnNl_joinNl (l2 :: ls) (by simp) (fun x hx => hm x (List.mem_cons_of_mem l hx))]

theorem lineText_nil : lineText [] = [] := rfl

theorem lineText_cons (f : Fragment) (l : List Fragment) :
    lineText (f :: l) = unescape f.text ++ lineText l := rfl

theorem lineText_append (a b : List Fragment) :
    lineText (a ++ b) = lineText a ++ lineText b := by
  induction a with
  | nil => rfl
  | cons f fs ih =>
    rw [List.cons_append, lineText_cons, lineText_cons, ih, List.append_assoc]

theorem docText_nil : docText [] = [] := rfl

theorem docText_single (l : List Fragment) : docText [l] = lineText l := rfl

theorem docText_cons₂ (l : List Fragment) (L : List (List Fragment)) (h : L ≠ []) :
    docText (l :: L) = lineText l ++ '\n' :: docText L := by
  unfold docText
  rw [List.map_cons, joinNl_cons₂]
  simpa using h

theorem glue_ne_nil : ∀ (a b : List (List Fragment)), a ≠ [] → glue a b ≠ []
  | [], _, h => absurd rfl h
  | [l], b, _ => by cases b <;> simp [glue]
  | _ :: _ :: _, b, _ => by simp [glue]

theorem docText_glue : ∀ (a b : List (List Fragment)),
    docText (glue a b) = docText a ++ docText b
  | [], b => by simp [glue, docText_nil]
  | [l], [] => by simp [glue, docText_nil]
  | [l], m :: ms => by
    cases ms with
    | nil =>
      show docText [l ++ m] = docText [l] ++ docText [m]
      rw [docText_single, docText_single, docText_single, lineText_append]
    | cons m2 ms2 =>
      show docText ((l ++ m) :: m2 :: ms2) = docText [l] ++ docText (m :: m2 :: ms2)
      rw [docText_cons₂ (l ++ m) (m2 :: ms2) (by simp), docText_single,
        docText_cons₂ m (m2 :: ms2) (by simp), lineText_append, List.append_assoc]
  | l :: l2 :: ls, b => by
    show docText (l :: glue (l2 :: ls) b) = docText (l :: l2 :: ls) ++ docText b
    rw [docText_cons₂ l (glue (l2 :: ls) b) (glue_ne_nil _ b (by simp)),
      docText_glue (l2 :: ls) b, docText_cons₂ l (l2 :: ls) (by simp)]
    simp [List.append_assoc]

theorem docText_consHead (f : Fragment) : ∀ (L : List (List Fragment)),
    docText (consHead f L) = unescape f.text ++ docText L
  | [] => by
    show docText [[f]] = unescape f.text ++ docText []
    rw [docText_single, docText_nil, lineText_cons, lineText_nil, List.append_nil]
  | l :: ls => by
    cases ls with
    | nil =>
      show docText [f :: l] = unescape f.text ++ docText [l]
      rw [docText_single, docText_single, lineText_cons]
    | cons l2 ls2 =>
      show docText ((f :: l) :: l2 :: ls2) = unescape f.text ++ docText (l :: l2 :: ls2)
      rw [docText_cons₂ (f :: l) (l2 :: ls2) (by simp),
        docText_cons₂ l (l2 :: ls2) (by simp), lineText_cons, List.append_assoc]

theorem docText_spanMultiline (k : Kind) (r : List Char) :
    docText (spanMultiline k r) = r := by
  have gen : ∀ (L : List (List Char)),
      (L.map (fun p => [(⟨k, escape p⟩ : Fragment)])).map lineText = L := by
    intro L
    induction L with
    | nil => rfl
    | cons x xs ih =>
      rw [List.map_cons, List.map_cons, ih]
      congr 1
      rw [lineText_cons, lineText_nil, List.append_nil]
      exact unescape_escape x
  unfold docText spanMultiline
  rw [gen]
  exact joinNl_splitOnNl r

theorem colorTagGoF_ne_nil : ∀ (fuel : Nat) (acc : List Char) (s : List Char),
    colorTagGoF fuel acc s ≠ []
  | fuel, acc, [] => by cases fuel <;> simp [colorTagGoF]
  | 0, _, _ :: _ => by simp [colorTagGoF]
  | fuel + 1, acc, c :: cs => by
    by_cases h1 : c = '\n'
    · simp [colorTagGoF, h1]
    · by_cases h2 : c = '"' ∨ c = '\''
      · simp only [colorTagGoF, if_neg h1, if_pos h2]
        apply glue_ne_nil
        cases spanMultiline Kind.stringLit (c :: cs.take (scanQ c cs + 1)) <;> simp [consHead]
      · simp only [colorTagGoF, if_neg h1, if_neg h2]
        exact colorTagGoF_ne_nil fuel (acc ++ escape [c]) cs

theorem colorTagGoF_nl (fuel : Nat) (acc : List Char) (cs : List Char) :
    colorTagGoF (fuel + 1) acc ('\n' :: cs)
      = [⟨Kind.tag, acc⟩] :: colorTagGoF fuel [] cs := by
  simp [colorTagGoF]

theorem colorTagGoF_quote (fuel : Nat) (acc : List Char) (c : Char) (cs : List Char)
    (h2 : c = '"' ∨ c = '\'') :
    colorTagGoF (fuel + 1) acc (c :: cs)
      = glue (consHead ⟨Kind.tag, acc⟩
            (spanMultiline Kind.stringLit (c :: cs.take (scanQ c cs + 1))))
          (colorTagGoF fuel [] (cs.drop (scanQ c cs + 1))) := by
  rcases h2 with rfl | rfl <;> simp [colorTagGoF]

theorem colorTagGoF_other (fuel : Nat) (acc : List Char) (c : Char) (cs : List Char)
    (h1 : c ≠ '\n') (h2 : ¬(c = '"' ∨ c = '\'')) :
    colorTagGoF (fuel + 1) acc (c :: cs) = colorTagGoF fuel (acc ++ escape [c]) cs := by
  simp [colorTagGoF, h1, h2]

theorem docText_colorTagGoF : ∀ (fuel : Nat) (w s : List Char), s.length ≤ fuel →
    docText (colorTagGoF fuel (escape w) s) = w ++ s
  | fuel, w, [], _ => by
    cases fuel <;>
    · show docText [[⟨Kind.tag, escape w⟩]] = w ++ []
      rw [docText_single, lineText_cons, lineText_nil, List.append_nil, List.append_nil]
      exact unescape_escape w
  | 0, w, c :: cs, h => by simp at h
  | fuel + 1, w, c :: cs, h => by
    by_cases h1 : c = '\n'
    · subst h1
      rw [colorTagGoF_nl, docText_cons₂ _ _ (colorTagGoF_ne_nil fuel [] cs)]
      have ih := docText_colorTagGoF fuel [] cs (by simp at h; omega)
      rw [show escape [] = ([] : List Char) from rfl] at ih
      rw [ih, lineText_cons, lineText_nil, List.append_nil, unescape_escape]
      simp
    · by_cases h2 : c = '"' ∨ c = '\''
      · rw [colorTagGoF_quote fuel (escape w) c cs h2, docText_glue, docText_consHead]
        have ih := docText_colorTagGoF fuel [] (cs.drop (scanQ c cs + 1)) (by
          simp only [List.length_cons] at h
          simp only [List.length_drop]
          omega)
        rw [show escape [] = ([] : List Char) from rfl] at ih
        rw [ih, docText_spanMultiline]
        have he : unescape (Fragment.mk Kind.tag (escape w)).text = w := unescape_escape w
        rw [he]
        simp [List.take_append_drop]
      · rw [colorTagGoF_other fuel (escape w) c cs h1 h2,
          show escape w ++ escape [c] = escape (w ++ [c]) from (escape_append w [c]).symm,
          docText_colorTagGoF fuel (w ++ [c]) cs (by simp at h; omega)]
        simp

theorem docText_fragLines (t : Token) (hn : t.kind = Kind.newline → t.rawText = ['\n']) :
    docText (fragLines t) = t.rawText := by
  obtain ⟨k, r⟩ := t
  cases k with
  | lineComment =>
    show docText [[⟨Kind.lineComment, escape r⟩]] = r
    rw [docText_single, lineText_cons, lineText_nil, List.append_nil]
    exact unescape_escape r
  | blockComment => exact docText_spanMultiline _ _
  | tag =>
    show docText (colorTagGo [] r) = r
    have hgo := docText_colorTagGoF r.length [] r le_rfl
    rw [show escape [] = ([] : List Char) from rfl] at hgo
    simpa [colorTagGo] using hgo
  | stringLit => exact docText_spanMultiline _ _
  | plain =>
    show docText [[⟨Kind.plain, escape r⟩]] = r
    rw [docText_single, lineText_cons, lineText_nil, List.append_nil]
    exact unescape_escape r
  | newline =>
    have hr : r = ['\n'] := hn rfl
    subst hr
    rfl

theorem findChar_pos {a : Char} {x : Char} {xs : List Char} {e : Nat}
    (hf : findChar a (x :: xs) = some e) (hx : x ≠ a) : 1 ≤ e := by
  simp only [findChar, if_neg hx] at hf
  rcases Option.map_eq_some'.mp hf with ⟨e', -, rfl⟩
  omega

theorem take_cons_ne_nil {n : Nat} (h : 1 ≤ n) (c : Char) (cs : List Char) :
    (c :: cs).take n ≠ [] := by
  obtain ⟨m, rfl⟩ : ∃ m, n = m + 1 := ⟨n - 1, by omega⟩
  simp [List.take_succ_cons]

theorem nextToken_lc_some (c : Char) (cs : List Char) (e : Nat)
    (g1 : c = '/' ∧ cs.head? = some '/') (hf : findChar '\n' (c :: cs) = some e) :
    nextToken (c :: cs)
      = some (⟨Kind.lineComment, (c :: cs).take e⟩, (c :: cs).drop e) := by
  simp only [nextToken]
  rw [if_pos g1, hf]

theorem nextToken_lc_none (c : Char) (cs : List Char)
    (g1 : c = '/' ∧ cs.head? = some '/') (hf : findChar '\n' (c :: cs) = none) :
    nextToken (c :: cs) = some (⟨Kind.lineComment, c :: cs⟩, []) := by
  simp only [nextToken]
  rw [if_pos g1, hf]

theorem nextToken_bc_some (c : Char) (cs : List Char) (e : Nat)
    (n1 : ¬(c = '/' ∧ cs.head? = some '/')) (g2 : c = '/' ∧ cs.head? = some '*')
    (hf : findSub ['*', '/'] (cs.drop 1) = some e) :
    nextToken (c :: cs)
      = some (⟨Kind.blockComment, (c :: cs).take (e + 4)⟩, (c :: cs).drop (e + 4)) := by
  simp only [nextToken]
  rw [if_neg n1, if_pos g2, hf]

theorem nextToken_bc_none (c : Char) (cs : List Char)
    (n1 : ¬(c = '/' ∧ cs.head? = some '/')) (g2 : c = '/' ∧ cs.head? = some '*')
    (hf : findSub ['*', '/'] (cs.drop 1) = none) :
    nextToken (c :: cs) = some (⟨Kind.blockComment, c :: cs⟩, []) := by
  simp only [nextToken]
  rw [if_neg n1, if_pos g2, hf]

theorem nextToken_hc_some (c : Char) (cs : List Char) (e : Nat)
    (n1 : ¬(c = '/' ∧ cs.head? = some '/')) (n2 : ¬(c = '/' ∧ cs.head? = some '*'))
    (g3 : (c :: cs).take 4 = ['<', '!', '-', '-'])
    (hf : findSub ['-', '-', '>'] (c :: cs) = some e) :
    nextToken (c :: cs)
      = some (⟨Kind.blockComment, (c :: cs).take (e + 3)⟩, (c :: cs).drop (e + 3)) := by
  simp only [nextToken]
  rw [if_neg n1, if_neg n2, if_pos g3, hf]

theorem nextToken_hc_none (c : Char) (cs : List Char)
    (n1 : ¬(c = '/' ∧ cs.head? = some '/')) (n2 : ¬(c = '/' ∧ cs.head? = some '*'))
    (g3 : (c :: cs).take 4 = ['<', '!', '-', '-'])
    (hf : findSub ['-', '-', '>'] (c :: cs) = none) :
    nextToken (c :: cs) = some (⟨Kind.blockComment, c :: cs⟩, []) := by
  simp only [nextToken]
  rw [if_neg n1, if_neg n2, if_pos g3, hf]

theorem nextToken_tag_some (c : Char) (cs : List Char) (e : Nat)
    (n1 : ¬(c = '/' ∧ cs.head? = some '/')) (n2 : ¬(c = '/' ∧ cs.head? = some '*'))
    (n3 : ¬((c :: cs).take 4 = ['<', '!', '-', '-']))
    (g4 : c = '<' ∧ isTagStart cs.head? = true)
    (hf : findChar '>' (c :: cs) = some e) :
    nextToken (c :: cs)
      = some (⟨Kind.tag, (c :: cs).take (e + 1)⟩, (c :: cs).drop (e + 1)) := by
  simp only [nextToken]
  rw [if_neg n1, if_neg n2, if_neg n3, if_pos g4, hf]

theorem nextToken_tag_none (c : Char) (cs : List Char)
    (n1 : ¬(c = '/' ∧ cs.head? = some '/')) (n2 : ¬(c = '/' ∧ cs.head? = some '*'))
    (n3 : ¬((c :: cs).take 4 = ['<', '!', '-', '-']))
    (g4 : c = '<' ∧ isTagStart cs.head? = true)
    (hf : findChar '>' (c :: cs) = none) :
    nextToken (c :: cs) = some (tailBranches c cs) := by
  simp only [nextToken]
  rw [if_neg n1, if_neg n2, if_neg n3, if_pos g4, hf]

theorem nextToken_tail (c : Char) (cs : List Char)
    (n1 : ¬(c = '/' ∧ cs.head? = some '/')) (n2 : ¬(c = '/' ∧ cs.head? = some '*'))
    (n3 : ¬((c :: cs).take 4 = ['<', '!', '-', '-']))
    (n4 : ¬(c = '<' ∧ isTagStart cs.head? = true)) :
    nextToken (c :: cs) = some (tailBranches c cs) := by
  simp only [nextToken]
  rw [if_neg n1, if_neg n2, if_neg n3, if_neg n4]

theorem tailBranches_spec (c : Char) (cs : List Char) (t : Token) (rest : List Char)
    (h : tailBranches c cs = (t, rest)) :
    t.rawText ++ rest = c :: cs ∧ t.rawText ≠ [] ∧ rest.length ≤ cs.length ∧
      (t.kind = Kind.newline → t.rawText = ['\n']) := by
  unfold tailBranches at h
  by_cases h1 : c = '"' ∨ c = '\''
  · rw [if_pos h1] at h
    cases h
    refine ⟨?_, by simp, ?_, by simp⟩
    · show (c :: List.take (scanQ c cs + 1) cs) ++ List.drop (scanQ c cs + 1) cs = c :: cs
      rw [List.cons_append, List.take_append_drop]
    · show (List.drop (scanQ c cs + 1) cs).length ≤ cs.length
      rw [List.length_drop]
      omega
  · rw [if_neg h1] at h
    by_cases h2 : c = '\n'
    · rw [if_pos h2] at h
      cases h
      exact ⟨rfl, by simp, le_refl _, fun _ => by rw [h2]⟩
    · rw [if_neg h2] at h
      cases h
      exact ⟨rfl, by simp, le_refl _, by simp⟩

theorem nextToken_spec : ∀ (s : List Char) (t : Token) (rest : List Char),
    nextToken s = some (t, rest) →
    t.rawText ++ rest = s ∧ t.rawText ≠ [] ∧ rest.length < s.length ∧
      (t.kind = Kind.newline → t.rawText = ['\n'])
  | [], t, rest, h => by simp [nextToken] at h
  | c :: cs, t, rest, h => by
    by_cases g1 : c = '/' ∧ cs.head? = some '/'
    · cases hf : findChar '\n' (c :: cs) with
      | some e =>
        rw [nextToken_lc_some c cs e g1 hf] at h
        simp only [Option.some.injEq, Prod.mk.injEq] at h
        obtain ⟨rfl, rfl⟩ := h
        have he : 1 ≤ e := findChar_pos hf (by rw [g1.1]; decide)
        refine ⟨List.take_append_drop _ _, take_cons_ne_nil he c cs, ?_, by simp⟩
        rw [List.length_drop]
        simp only [List.length_cons]
        omega
      | none =>
        rw [nextToken_lc_none c cs g1 hf] at h
        simp only [Option.some.injEq, Prod.mk.injEq] at h
        obtain ⟨rfl, rfl⟩ := h
        exact ⟨by simp, by simp, by simp, by simp⟩
    · by_cases g2 : c = '/' ∧ cs.head? = some '*'
      · cases hf : findSub ['*', '/'] (cs.drop 1) with
        | some e =>
          rw [nextToken_bc_some c cs e g1 g2 hf] at h
          simp only [Option.some.injEq, Prod.mk.injEq] at h
          obtain ⟨rfl, rfl⟩ := h
          refine ⟨List.take_append_drop _ _, take_cons_ne_nil (by omega) c cs, ?_, by simp⟩
          rw [List.length_drop]
          simp only [List.length_cons]
          omega
        | none =>
          rw [nextToken_bc_none c cs g1 g2 hf] at h
          simp only [Option.some.injEq, Prod.mk.injEq] at h
          obtain ⟨rfl, rfl⟩ := h
          exact ⟨by simp, by simp, by simp, by simp⟩
      · by_cases g3 : (c :: cs).take 4 = ['<', '!', '-', '-']
        · cases hf : findSub ['-', '-', '>'] (c :: cs) with
          | some e =>
            rw [nextToken_hc_some c cs e g1 g2 g3 hf] at h
            simp only [Option.some.injEq, Prod.mk.injEq] at h
            obtain ⟨rfl, rfl⟩ := h
            refine ⟨List.take_append_drop _ _, take_cons_ne_nil (by omega) c cs, ?_, by simp⟩
            rw [List.length_drop]
            simp only [List.length_cons]
            omega
          | none =>
            rw [nextToken_hc_none c cs g1 g2 g3 hf] at h
            simp only [Option.some.injEq, Prod.mk.injEq] at h
            obtain ⟨rfl, rfl⟩ := h
            exact ⟨by simp, by simp, by simp, by simp⟩
        · by_cases g4 : c = '<' ∧ isTagStart cs.head? = true
          · cases hf : findChar '>' (c :: cs) with
            | some e =>
              rw [nextToken_tag_some c cs e g1 g2 g3 g4 hf] at h
              simp only [Option.some.injEq, Prod.mk.injEq] at h
              obtain ⟨rfl, rfl⟩ := h
              refine ⟨List.take_append_drop _ _, take_cons_ne_nil (by omega) c cs, ?_, by simp⟩
              rw [List.length_drop]
              simp only [List.length_cons]
              omega
            | none =>
              rw [nextToken_tag_none c cs g1 g2 g3 g4 hf] at h
              simp only [Option.some.injEq] at h
              have hs := tailBranches_spec c cs t rest h
              refine ⟨hs.1, hs.2.1, ?_, hs.2.2.2⟩
              have := hs.2.2.1
              simp only [List.length_cons]
              omega
          · rw [nextToken_tail c cs g1 g2 g3 g4] at h
            simp only [Option.some.injEq] at h
            have hs := tailBranches_spec c cs t rest h
            refine ⟨hs.1, hs.2.1, ?_, hs.2.2.2⟩
            have := hs.2.2.1
            simp only [List.length_cons]
            omega

theorem nextToken_nil : nextToken [] = none := rfl

theorem nextToken_cons_isSome (c : Char) (cs : List Char) :
    (nextToken (c :: cs)).isSome = true := by
  simp only [nextToken, Option.isSome_some]

theorem tokenizeF_nil (fuel : Nat) : tokenizeF fuel [] = [] := by
  cases fuel <;> rfl

theorem tokenizeF_adequate : ∀ (f1 f2 : Nat) (s : List Char),
    s.length ≤ f1 → s.length ≤ f2 → tokenizeF f1 s = tokenizeF f2 s
  | 0, f2, s, h1, _ => by
    have hs : s = [] := by
      cases s with
      | nil => rfl
      | cons c cs => simp at h1
    rw [hs, tokenizeF_nil, tokenizeF_nil]
  | f1 + 1, f2, s, h1, h2 => by
    cases s with
    | nil => rw [tokenizeF_nil, tokenizeF_nil]
    | cons c cs =>
      cases f2 with
      | zero => simp at h2
      | succ f2 =>
        simp only [tokenizeF]
        cases hn : nextToken (c :: cs) with
        | none => rfl
        | some pr =>
          obtain ⟨t, rest⟩ := pr
          have hs := nextToken_spec _ _ _ hn
          have hlt := hs.2.2.1
          simp only [List.length_cons] at hlt h1 h2
          show t :: tokenizeF f1 rest = t :: tokenizeF f2 rest
          rw [tokenizeF_adequate f1 f2 rest (by omega) (by omega)]

theorem roundtripF : ∀ (fuel : Nat) (s : List Char), s.length ≤ fuel →
    docText (renderTokens (tokenizeF fuel s)) = s
  | 0, s, h => by
    have hs : s = [] := by
      cases s with
      | nil => rfl
      | cons c cs => simp at h
    rw [hs, tokenizeF_nil]
    rfl
  | fuel + 1, s, h => by
    cases hn : nextToken s with
    | none =>
      have hs : s = [] := by
        cases s with
        | nil => rfl
        | cons c cs => rw [← Option.not_isSome_iff_eq_none] at hn
                       exact absurd (nextToken_cons_isSome c cs) hn
      rw [hs, tokenizeF_nil]
      rfl
    | some pr =>
      obtain ⟨t, rest⟩ := pr
      obtain ⟨hsplit, -, hlt, hnl⟩ := nextToken_spec s t rest hn
      show docText (renderTokens (tokenizeF (fuel + 1) s)) = s
      rw [show tokenizeF (fuel + 1) s = t :: tokenizeF fuel rest from by
        simp only [tokenizeF, hn]]
      show docText (glue (fragLines t) (renderTokens (tokenizeF fuel rest))) = s
      rw [docText_glue, docText_fragLines t hnl,
        roundtripF fuel rest (by omega)]
      exact hsplit

/-- Lossless reconstruction: un-escaping every fragment and rejoining the
lines of the rendered token stream with '\n' reproduces the scanned text
exactly, for every input. -/
theorem roundtrip (s : List Char) : docText (renderTokens (tokenize s)) = s :=
  roundtripF s.length s le_rfl

theorem dropWhile_head_false {α : Type} (p : α → Bool) :
    ∀ (l : List α) {x : α} {xs : List α}, l.dropWhile p = x :: xs → p x = false
  | [], x, xs, h => by simp [List.dropWhile] at h
  | c :: cs, x, xs, h => by
    by_cases hc : p c = true
    · rw [List.dropWhile_cons_of_pos hc] at h
      exact dropWhile_head_false p cs h
    · rw [List.dropWhile_cons_of_neg hc] at h
      cases h
      simpa using hc

theorem mem_of_mem_dropWhile {α : Type} {p : α → Bool} {l : List α} {x : α}
    (h : x ∈ l.dropWhile p) : x ∈ l :=
  (List.dropWhile_suffix p).sublist.subset h

theorem dropBlankEnds_prefix (L : List (List Char)) :
    ∃ t, L.dropWhile isBlank = dropBlankEnds L ++ t := by
  obtain ⟨t, ht⟩ :=
    (List.dropWhile_suffix isBlank :
      List.dropWhile isBlank ((L.dropWhile isBlank).reverse) <:+ (L.dropWhile isBlank).reverse)
  refine ⟨t.reverse, ?_⟩
  unfold dropBlankEnds
  calc L.dropWhile isBlank
      = ((L.dropWhile isBlank).reverse).reverse := (List.reverse_reverse _).symm
    _ = (t ++ ((L.dropWhile isBlank).reverse.dropWhile isBlank)).reverse := by rw [ht]
    _ = ((L.dropWhile isBlank).reverse.dropWhile isBlank).reverse ++ t.reverse := by
        rw [List.reverse_append]

theorem mem_of_mem_dropBlankEnds {L : List (List Char)} {l : List Char}
    (h : l ∈ dropBlankEnds L) : l ∈ L := by
  unfold dropBlankEnds at h
  rw [List.mem_reverse] at h
  exact mem_of_mem_dropWhile (List.mem_reverse.mp (mem_of_mem_dropWhile h))

theorem dropBlankEnds_head {L : List (List Char)} {x : List Char} {xs : List (List Char)}
    (h : dropBlankEnds L = x :: xs) : isBlank x = false := by
  obtain ⟨t, ht⟩ := dropBlankEnds_prefix L
  rw [h, List.cons_append] at ht
  exact dropWhile_head_false isBlank L ht

theorem dropBlankEnds_last {L : List (List Char)} {y : List Char} {ys : List (List Char)}
    (h : (dropBlankEnds L).reverse = y :: ys) : isBlank y = false := by
  unfold dropBlankEnds at h
  rw [List.reverse_reverse] at h
  exact dropWhile_head_false isBlank _ h

theorem dropBlankEnds_eq_self {L : List (List Char)}
    (h1 : ∀ x xs, L = x :: xs → isBlank x = false)
    (h2 : ∀ y ys, L.reverse = y :: ys → isBlank y = false) :
    dropBlankEnds L = L := by
  cases hL : L with
  | nil => rfl
  | cons x xs =>
    have hx : isBlank x = false := h1 x xs hL
    unfold dropBlankEnds
    rw [List.dropWhile_cons_of_neg (by simp [hx])]
    cases hR : (x :: xs).reverse with
    | nil =>
      rw [List.reverse_eq_nil_iff] at hR
      cases hR
    | cons y ys =>
      have hy : isBlank y = false := h2 y ys (by rw [hL, hR])
      calc (List.dropWhile isBlank (y :: ys)).reverse
          = (y :: ys).reverse := by rw [List.dropWhile_cons_of_neg (by simp [hy])]
        _ = ((x :: xs).reverse).reverse := by rw [hR]
        _ = x :: xs := List.reverse_reverse _

theorem foldl_min_le_init (ns : List (List Char)) : ∀ (a : Nat),
    ns.foldl (fun acc l => min acc (indentOf l)) a ≤ a := by
  induction ns with
  | nil => intro a; exact le_refl a
  | cons m ms ih => intro a; exact le_trans (ih _) (min_le_left _ _)

theorem foldl_min_le_mem (ns : List (List Char)) : ∀ (a : Nat) (l : List Char), l ∈ ns →
    ns.foldl (fun acc l => min acc (indentOf l)) a ≤ indentOf l := by
  induction ns with
  | nil => intro a l h; simp at h
  | cons m ms ih =>
    intro a l h
    rcases List.mem_cons.mp h with rfl | h
    · exact le_trans (foldl_min_le_init ms _) (min_le_right _ _)
    · exact ih _ l h

theorem indentList_le {L : List (List Char)} {l : List Char} (h : l ∈ L) :
    indentList L ≤ indentOf l := by
  cases L with
  | nil => simp at h
  | cons n ns =>
    rcases List.mem_cons.mp h with rfl | h
    · exact foldl_min_le_init ns _
    · exact foldl_min_le_mem ns _ l h

theorem foldl_min_map_sub (c : Nat) : ∀ (ns : List (List Char)) (a : Nat),
    (∀ l ∈ ns, indentOf (l.drop c) = indentOf l - c) →
    (ns.map (fun l => l.drop c)).foldl (fun acc l => min acc (indentOf l)) (a - c)
      = ns.foldl (fun acc l => min acc (indentOf l)) a - c
  | [], a, _ => rfl
  | m :: ms, a, hm => by
    simp only [List.map_cons, List.foldl_cons]
    rw [hm m (by simp), show min (a - c) (indentOf m - c) = min a (indentOf m) - c from by
      omega]
    exact foldl_min_map_sub c ms _ (fun l hl => hm l (List.mem_cons_of_mem m hl))

theorem indentList_map_sub (c : Nat) (L : List (List Char))
    (hm : ∀ l ∈ L, indentOf (l.drop c) = indentOf l - c) :
    indentList (L.map (fun l => l.drop c)) = indentList L - c := by
  cases L with
  | nil => simp [indentList]
  | cons n ns =>
    simp only [List.map_cons, indentList]
    rw [hm n (by simp)]
    exact foldl_min_map_sub c ns (indentOf n) (fun l hl => hm l (List.mem_cons_of_mem n hl))

theorem isBlank_iff_dropWhile (l : List Char) : isBlank l = true ↔ l.dropWhile isWs = [] := by
  induction l with
  | nil => simp [isBlank, List.dropWhile]
  | cons c cs ih =>
    by_cases hc : isWs c = true
    · rw [List.dropWhile_cons_of_pos hc]
      simp only [isBlank, List.all_cons, hc, Bool.true_and]
      exact ih
    · rw [List.dropWhile_cons_of_neg hc]
      simp [isBlank, List.all_cons, hc]

theorem takeWhile_append_of_all {α : Type} (p : α → Bool) : ∀ (A B : List α),
    (∀ y ∈ A, p y = true) → (A ++ B).takeWhile p = A ++ B.takeWhile p
  | [], B, _ => rfl
  | a :: as, B, h => by
    rw [List.cons_append, List.takeWhile_cons_of_pos (h a (by simp)),
      takeWhile_append_of_all p as B (fun y hy => h y (List.mem_cons_of_mem a hy)),
      List.cons_append]

theorem drop_indent_structure (l : List Char) (n : Nat) (hn : n ≤ indentOf l) :
    l.drop n = (l.takeWhile isWs).drop n ++ l.dropWhile isWs := by
  conv_lhs => rw [← List.takeWhile_append_dropWhile isWs l]
  rw [List.drop_append_eq_append_drop,
    show n - (l.takeWhile isWs).length = 0 from by unfold indentOf at hn; omega,
    List.drop_zero]

theorem isBlank_drop_of_not (l : List Char) (n : Nat) (hbl : isBlank l = false)
    (hn : n ≤ indentOf l) : isBlank (l.drop n) = false := by
  rw [drop_indent_structure l n hn]
  cases hd : l.dropWhile isWs with
  | nil => exact absurd ((isBlank_iff_dropWhile l).mpr hd) (by simp [hbl])
  | cons x xs =>
    have hx : isWs x = false := dropWhile_head_false isWs l hd
    simp [isBlank, List.all_append, List.all_cons, hx]

theorem indentOf_drop (l : List Char) (n : Nat) (hbl : isBlank l = false)
    (hn : n ≤ indentOf l) : indentOf (l.drop n) = indentOf l - n := by
  rw [drop_indent_structure l n hn]
  cases hd : l.dropWhile isWs with
  | nil => exact absurd ((isBlank_iff_dropWhile l).mpr hd) (by simp [hbl])
  | cons x xs =>
    have hx : isWs x = false := dropWhile_head_false isWs l hd
    unfold indentOf
    rw [takeWhile_append_of_all isWs _ _
        (fun y hy => List.mem_takeWhile_imp ((List.drop_sublist n _).subset hy)),
      List.takeWhile_cons_of_neg (by simp [hx]), List.append_nil, List.length_drop]

theorem isBlank_drop_of_blank (l : List Char) (n : Nat) (hbl : isBlank l = true) :
    isBlank (l.drop n) = true := by
  simp only [isBlank, List.all_eq_true] at hbl ⊢
  exact fun x hx => hbl x ((List.drop_sublist n l).subset hx)

theorem filter_map_drop (c : Nat) : ∀ (L : List (List Char)),
    (∀ l ∈ L, isBlank (l.drop c) = isBlank l) →
    (L.map (fun l => l.drop c)).filter (fun l => !(isBlank l))
      = (L.filter (fun l => !(isBlank l))).map (fun l => l.drop c)
  | [], _ => rfl
  | m :: ms, h => by
    simp only [List.map_cons, List.filter_cons]
    have hmm := h m (by simp)
    have tl := filter_map_drop c ms (fun l hl => h l (List.mem_cons_of_mem m hl))
    by_cases hb : isBlank m = true
    · rw [if_neg (by simp [hmm, hb]), if_neg (by simp [hb])]
      exact tl
    · rw [if_pos (by simp [hmm, hb]), if_pos (by simp [hb]), List.map_cons, tl]

theorem dedent_dedent (s : List Char) : dedent (dedent s) = dedent s := by
  by_cases h0 : dropBlankEnds (splitOnNl s) = []
  · have hd : dedent s = [] := by unfold dedent; rw [if_pos h0]
    rw [hd]
    rfl
  · obtain ⟨M, hM⟩ : ∃ M, dropBlankEnds (splitOnNl s) = M := ⟨_, rfl⟩
    rw [hM] at h0
    obtain ⟨ind, hind⟩ : ∃ i, minIndent M = i := ⟨_, rfl⟩
    obtain ⟨D, hD⟩ : ∃ D, M.map (fun l => l.drop ind) = D := ⟨_, rfl⟩
    have hd : dedent s = joinNl D := by
      unfold dedent
      rw [if_neg (by rw [hM]; exact h0)]
      rw [hM, hind, hD]
    have hMnoNl : ∀ l ∈ M, '\n' ∉ l := fun l hl =>
      not_nl_mem_splitOnNl s l (mem_of_mem_dropBlankEnds (hM ▸ hl))
    obtain ⟨x, xs, hMx⟩ : ∃ x xs, M = x :: xs := by
      cases M with
      | nil => exact absurd rfl h0
      | cons a as => exact ⟨a, as, rfl⟩
    have hxblank : isBlank x = false := dropBlankEnds_head (hM.trans hMx)
    obtain ⟨y, ys, hMy⟩ : ∃ y ys, M.reverse = y :: ys := by
      cases hr : M.reverse with
      | nil =>
        rw [List.reverse_eq_nil_iff] at hr
        exact absurd hr h0
      | cons a as => exact ⟨a, as, rfl⟩
    have hyblank : isBlank y = false := by
      have hrev : (dropBlankEnds (splitOnNl s)).reverse = y :: ys := by rw [hM, hMy]
      exact dropBlankEnds_last hrev
    have hymem : y ∈ M := by
      rw [← List.mem_reverse, hMy]
      simp
    have hle : ∀ l ∈ M, isBlank l = false → ind ≤ indentOf l := by
      intro l hl hbl
      rw [← hind]
      exact indentList_le (List.mem_filter.mpr ⟨hl, by simp [hbl]⟩)
    have hDnoNl : ∀ l ∈ D, '\n' ∉ l := by
      intro l hl
      rw [← hD, List.mem_map] at hl
      obtain ⟨l', hl', rfl⟩ := hl
      exact fun hm => hMnoNl l' hl' ((List.drop_sublist ind l').subset hm)
    have hDne : D ≠ [] := by
      rw [← hD, hMx]
      simp
    have hsj : splitOnNl (joinNl D) = D := splitOnNl_joinNl D hDne hDnoNl
    have hDhead : D = (x.drop ind) :: xs.map (fun l => l.drop ind) := by
      rw [← hD, hMx]
      simp
    have hxD : isBlank (x.drop ind) = false :=
      isBlank_drop_of_not x ind hxblank (hle x (by rw [hMx]; simp) hxblank)
    have hDrev : D.reverse = (y.drop ind) :: ys.map (fun l => l.drop ind) := by
      rw [← hD, ← List.map_reverse, hMy]
      simp
    have hyD : isBlank (y.drop ind) = false :=
      isBlank_drop_of_not y ind hyblank (hle y hymem hyblank)
    have hDBE : dropBlankEnds D = D := by
      apply dropBlankEnds_eq_self
      · intro a as ha
        rw [hDhead] at ha
        cases ha
        exact hxD
      · intro a as ha
        rw [hDrev] at ha
        cases ha
        exact hyD
    have hpres : ∀ l ∈ M, isBlank (l.drop ind) = isBlank l := by
      intro l hl
      by_cases hb : isBlank l = true
      · rw [hb]
        exact isBlank_drop_of_blank l ind hb
      · have hb' : isBlank l = false := by simpa using hb
        rw [hb']
        exact isBlank_drop_of_not l ind hb' (hle l hl hb')
    have hindD : minIndent D = 0 := by
      rw [← hD]
      unfold minIndent
      rw [filter_map_drop ind M hpres,
        indentList_map_sub ind (M.filter (fun l => !(isBlank l))) ?_]
      · have hindeq : ind = indentList (M.filter (fun l => !(isBlank l))) := by
          rw [← hind]
          rfl
        omega
      · intro l hl
        have hlM : l ∈ M := (List.mem_filter.mp hl).1
        have hbl : isBlank l = false := by
          have := (List.mem_filter.mp hl).2
          simpa using this
        exact indentOf_drop l ind hbl (hle l hlM hbl)
    rw [hd]
    unfold dedent
    rw [hsj, hDBE, if_neg hDne, hindD]
    have : D.map (fun l => l.drop 0) = D := by
      simp
    rw [this]

theorem scanQ_self (q : Char) (rest : List Char) : scanQ q (q :: rest) = 0 := by
  cases rest <;> simp [scanQ]

theorem scanQ_backslash (q : Char) (hq : ('\\' : Char) ≠ q) (c : Char) (rest : List Char) :
    scanQ q ('\\' :: c :: rest) = scanQ q rest + 2 := by
  simp [scanQ, hq]

theorem scanQ_other (q c : Char) (h1 : c ≠ q) (h2 : c ≠ '\\') (rest : List Char) :
    scanQ q (c :: rest) = scanQ q rest + 1 := by
  cases rest <;> simp [scanQ, h1, h2]

theorem scanQ_close : ∀ (q : Char) (cs : List Char), scanQ q cs < cs.length →
    cs.getD (scanQ q cs) q = q
  | q, [], h => by simp [scanQ] at h
  | q, [c], h => by
    by_cases h1 : c = q
    · simp [scanQ, h1]
    · by_cases h2 : c = '\\'
      · subst h2
        rw [show scanQ q ['\\'] = 2 from by simp [scanQ, h1]] at h
        simp at h
      · simp [scanQ, h1, h2] at h
  | q, c :: d :: cs, h => by
    by_cases h1 : c = q
    · simp [scanQ, h1]
    · by_cases h2 : c = '\\'
      · subst h2
        rw [show scanQ q ('\\' :: d :: cs) = scanQ q cs + 2 from by simp [scanQ, h1]] at h ⊢
        simp only [List.length_cons] at h
        exact scanQ_close q cs (by omega)
      · rw [show scanQ q (c :: d :: cs) = scanQ q (d :: cs) + 1 from by
          simp [scanQ, h1, h2]] at h ⊢
        simp only [List.length_cons] at h
        exact scanQ_close q (d :: cs) (by simp only [List.length_cons]; omega)

theorem tokenize_single (s : List Char) (t : Token) (h : nextToken s = some (t, [])) :
    tokenize s = [t] := by
  unfold tokenize
  cases hl : s.length with
  | zero =>
    have hs : s = [] := by
      cases s with
      | nil => rfl
      | cons c cs => simp at hl
    rw [hs] at h
    simp [nextToken] at h
  | succ n =>
    simp only [tokenizeF, h, tokenizeF_nil]

/-- Claim C1, counterexample: on the input `<span class="a>b">x</span>`
the scanner does NOT produce a Tag token covering `<span class="a>b">`;
no token at all covers that span, because the tag search is a plain
`indexOf('>')` that stops at the `>` inside the quoted attribute value. -/
theorem c1_counterexample :
    (tokenize c1input).head? ≠ some ⟨Kind.tag, c1claimedOpen⟩
    ∧ ∀ t ∈ tokenize c1input, t.rawText ≠ c1claimedOpen := by
  decide

/-- Claim C1, amended: on `<span class="a>b">x</span>` the `>` inside the
quoted attribute value terminates the tag, so the scanner produces the
Tag token `<span class="a>`, a Plain token `b`, and a String token
`">x</span>` that runs to the end of the input. -/
theorem c1_amended :
    tokenize c1input
      = [⟨Kind.tag, c1actualTag⟩, ⟨Kind.plain, ['b']⟩, ⟨Kind.stringLit, c1actualStr⟩] := by
  decide

/-- Claim C2, counterexample: for the input ` a\nb`, rejoining the
un-escaped fragments of the rendered line records does not reproduce
`dedent x`, because the pipeline tokenizes `trim(dedent x)`, and the
trim removes the leading space that `dedent` keeps. -/
theorem c2_counterexample :
    docText (renderTokens (tokenize (jsTrim (dedent c2x)))) ≠ dedent c2x := by
  decide

/-- Claim C2, amended: for every input `x`, un-escaping every fragment
and rejoining the line records with one newline between consecutive
lines reproduces `trim(dedent x)` — the text the pipeline actually
tokenizes — exactly. -/
theorem c2_roundtrip (x : List Char) :
    docText (renderTokens (tokenize (jsTrim (dedent x)))) = jsTrim (dedent x) :=
  roundtrip (jsTrim (dedent x))

/-- Claim C3, counterexample: the copy action applies `.trim()` after
`_dedent`, so for the input `a ` (trailing space) it yields `a`,
not `dedent "a " = "a "`. -/
theorem c3_counterexample : handleCopy c3x ≠ dedent c3x := by
  decide

/-- Claim C3, amended: for every raw source text the copy action yields
`trim(dedent x)` byte-for-byte — still the original un-escaped text: it
equals the un-escaped reconstruction of the displayed line records,
never the escaped or highlighted markup. -/
theorem c3_copy_contract (x : List Char) :
    handleCopy x = jsTrim (dedent x)
    ∧ handleCopy x = docText (renderTokens (tokenize (jsTrim (dedent x)))) :=
  ⟨rfl, (roundtrip (jsTrim (dedent x))).symm⟩

/-- Claim C4, counterexample: on the input `<a` (a tag-open with no `>`
anywhere after it) the scanner does NOT emit a Tag token to the end of
the input; the tag branch falls through and both characters come out as
Plain tokens. -/
theorem c4_counterexample :
    tokenize c4input = [⟨Kind.plain, ['<']⟩, ⟨Kind.plain, ['a']⟩]
    ∧ ∀ t ∈ tokenize c4input, t.kind ≠ Kind.tag := by
  decide

/-- Claim C4, amended: when the cursor is at `<` followed by a tag-start
character but no `>` exists anywhere in the remaining input (and the
input does not open an HTML comment), the scanner emits the `<` as a
single Plain token and continues scanning with the rest. -/
theorem c4_amended (cs : List Char) (h1 : isTagStart cs.head? = true)
    (h2 : ('<' :: cs).take 4 ≠ ['<', '!', '-', '-'])
    (h3 : findChar '>' ('<' :: cs) = none) :
    nextToken ('<' :: cs) = some (⟨Kind.plain, ['<']⟩, cs) := by
  rw [nextToken_tag_none '<' cs
      (fun hx => absurd hx.1 (by decide))
      (fun hx => absurd hx.1 (by decide))
      h2 ⟨rfl, h1⟩ h3]
  have ht : tailBranches '<' cs = (⟨Kind.plain, ['<']⟩, cs) := by
    unfold tailBranches
    rw [if_neg (by simp), if_neg (by simp)]
  rw [ht]

/-- Claim C4, witness for the amended theorem at the concrete input `<a`. -/
theorem c4_witness :
    isTagStart (['a'] : List Char).head? = true
    ∧ ('<' :: ['a']).take 4 ≠ ['<', '!', '-', '-']
    ∧ findChar '>' ('<' :: ['a']) = none
    ∧ nextToken ('<' :: ['a']) = some (⟨Kind.plain, ['<']⟩, ['a']) :=
  ⟨by decide, by decide, by decide, c4_amended ['a'] (by decide) (by decide) (by decide)⟩

/-- Claim C5: an input starting a block comment whose end marker `*/`
never occurs in the remaining text is consumed to the end of the input
as a single BlockComment token, with no error (the scanner is total). -/
theorem c5_unterminated_block (cs : List Char) (h : findSub ['*', '/'] cs = none) :
    tokenize ('/' :: '*' :: cs) = [⟨Kind.blockComment, '/' :: '*' :: cs⟩] := by
  apply tokenize_single
  rw [nextToken_bc_none '/' ('*' :: cs)
      (fun hx => by
        have := hx.2
        simp at this)
      ⟨rfl, rfl⟩
      (by
        show findSub ['*', '/'] cs = none
        exact h)]

/-- Claim C5, witness at the concrete input `/* never closed`: one
BlockComment token whose rawText equals the entire input. -/
theorem c5_witness :
    findSub ['*', '/'] c5tail = none
    ∧ tokenize c5input = [⟨Kind.blockComment, c5input⟩] :=
  ⟨by decide, c5_unterminated_block c5tail (by decide)⟩

/-- Claim C6: at a `"` or `'` cursor the scanner emits a String token
consuming up to and including the closing quote found by the escape-aware
scan `scanQ`, and `scanQ` finds exactly the matching unescaped closing
quote: it stops at an immediate quote, a backslash escapes the following
character (including the quote itself), any other character is skipped,
the stop position holds the quote character whenever it is inside the
input, and when the scan runs past the input the token consumes to the
end of the input. -/
theorem c6_string_rule (q : Char) (cs : List Char) (hq : q = '"' ∨ q = '\'') :
    nextToken (q :: cs)
      = some (⟨Kind.stringLit, q :: cs.take (scanQ q cs + 1)⟩, cs.drop (scanQ q cs + 1))
    ∧ (∀ rest : List Char, scanQ q (q :: rest) = 0)
    ∧ (∀ (c : Char) (rest : List Char), scanQ q ('\\' :: c :: rest) = scanQ q rest + 2)
    ∧ (∀ (c : Char) (rest : List Char), c ≠ q → c ≠ '\\' →
        scanQ q (c :: rest) = scanQ q rest + 1)
    ∧ (scanQ q cs < cs.length → cs.getD (scanQ q cs) q = q)
    ∧ (cs.length ≤ scanQ q cs → q :: cs.take (scanQ q cs + 1) = q :: cs) := by
  have hbs : ('\\' : Char) ≠ q := by
    rcases hq with rfl | rfl <;> decide
  refine ⟨?_, scanQ_self q, scanQ_backslash q hbs, ?_, scanQ_close q cs, ?_⟩
  · rw [nextToken_tail q cs
        (fun hx => by rcases hq with rfl | rfl <;> simp at hx)
        (fun hx => by rcases hq with rfl | rfl <;> simp at hx)
        (fun hx => by
          have hx' : q :: List.take 3 cs = ['<', '!', '-', '-'] := hx
          rcases hq with rfl | rfl <;> simp at hx')
        (fun hx => by rcases hq with rfl | rfl <;> simp at hx)]
    have ht : tailBranches q cs
        = (⟨Kind.stringLit, q :: cs.take (scanQ q cs + 1)⟩, cs.drop (scanQ q cs + 1)) := by
      unfold tailBranches
      rw [if_pos hq]
    rw [ht]
  · intro c rest h1 h2
    exact scanQ_other q c h1 h2 rest
  · intro hlen
    rw [List.take_of_length_le (by omega)]

/-- Claim C6, witness at the concrete input `"a"b` (opening quote
followed by `a"b`): the scan closes at the second character. -/
theorem c6_witness :
    (('"' : Char) = '"' ∨ ('"' : Char) = '\'')
    ∧ (nextToken ('"' :: c6cs)
        = some (⟨Kind.stringLit, '"' :: c6cs.take (scanQ '"' c6cs + 1)⟩,
            c6cs.drop (scanQ '"' c6cs + 1))
      ∧ (∀ rest : List Char, scanQ '"' ('"' :: rest) = 0)
      ∧ (∀ (c : Char) (rest : List Char), scanQ '"' ('\\' :: c :: rest) = scanQ '"' rest + 2)
      ∧ (∀ (c : Char) (rest : List Char), c ≠ '"' → c ≠ '\\' →
          scanQ '"' (c :: rest) = scanQ '"' rest + 1)
      ∧ (scanQ '"' c6cs < c6cs.length → c6cs.getD (scanQ '"' c6cs) '"' = '"')
      ∧ (c6cs.length ≤ scanQ '"' c6cs → '"' :: c6cs.take (scanQ '"' c6cs + 1) = '"' :: c6cs)) :=
  ⟨Or.inl rfl, c6_string_rule '"' c6cs (Or.inl rfl)⟩

/-- Claim C7: the two-line block comment `/* line1\nline2 */` renders as
exactly two line records, each holding exactly one fragment, and both
fragments are classified BlockComment (the classification is reopened
after the embedded newline). -/
theorem c7_multiline_reopen :
    renderTokens (tokenize c7input)
      = [[⟨Kind.blockComment, c7line1⟩], [⟨Kind.blockComment, c7line2⟩]] := by
  decide

/-- Claim C8: `dedent` is idempotent — dedenting a second time changes
nothing, for every input string. -/
theorem c8_dedent_idempotent (x : List Char) : dedent (dedent x) = dedent x :=
  dedent_dedent x

/-- Claim C9, counterexample: `_buildLines` is not a function of its text
input alone — with the same highlighted text it produces different
output depending on the `no-lines` attribute it reads from the element,
which is mutable cross-call state. -/
theorem c9_counterexample : buildLines true ['a'] ≠ buildLines false ['a'] := by
  decide

/-- Claim C9, amended: `dedent` and the scanner are deterministic pure
functions of their text input, as is the line-record rendering; the
HTML-building step is deterministic given the text together with the
`no-lines` display flag it reads. -/
theorem c9_deterministic (s t : List Char) (h : s = t) :
    dedent s = dedent t
    ∧ tokenize s = tokenize t
    ∧ renderTokens (tokenize s) = renderTokens (tokenize t)
    ∧ ∀ b : Bool, buildLines b s = buildLines b t := by
  subst h
  exact ⟨rfl, rfl, rfl, fun _ => rfl⟩

/-- Claim C9, witness for the amended determinism statement at `a`. -/
theorem c9_witness :
    dedent ['a'] = dedent ['a']
    ∧ tokenize ['a'] = tokenize ['a']
    ∧ renderTokens (tokenize ['a']) = renderTokens (tokenize ['a'])
    ∧ ∀ b : Bool, buildLines b ['a'] = buildLines b ['a'] :=
  c9_deterministic ['a'] ['a'] rfl

/-- Claim C10: the scan loop terminates on every finite input: every
token the scanner emits is non-empty and strictly advances the cursor,
so the input-length fuel bound is exact — any fuel at least the input
length produces the same token stream. -/
theorem c10_scan_terminates :
    (∀ (s : List Char) (t : Token) (rest : List Char),
        nextToken s = some (t, rest) → t.rawText ≠ [] ∧ rest.length < s.length)
    ∧ (∀ (fuel : Nat) (s : List Char), s.length ≤ fuel → tokenizeF fuel s = tokenize s) := by
  constructor
  · intro s t rest h
    have hs := nextToken_spec s t rest h
    exact ⟨hs.2.1, hs.2.2.1⟩
  · intro fuel s h
    exact tokenizeF_adequate fuel s.length s h le_rfl

/-- Claim C10, witness at the concrete input `a`. -/
theorem c10_witness :
    ((⟨Kind.plain, ['a']⟩ : Token).rawText ≠ []
      ∧ ([] : List Char).length < (['a'] : List Char).length)
    ∧ tokenizeF 2 ['a'] = tokenize ['a'] :=
  ⟨c10_scan_terminates.1 ['a'] ⟨Kind.plain, ['a']⟩ [] (by decide),
   c10_scan_terminates.2 2 ['a'] (by decide)⟩

end LunaCode
